import Mathlib

/-!
Shallow embedding of the MBTQ Auto-API backend (Python) in Lean 4.

Python dictionaries are modelled as insertion-ordered association lists
(`List (String × β)`) with lookup, overwrite-or-append insertion, and erase,
matching CPython dict semantics (insertion order preserved, assignment to an
existing key overwrites in place).  Wall-clock readings (`datetime.utcnow()`)
are threaded as explicit `Nat` parameters, and nondeterministic identifiers
(`uuid.uuid4()`, `secrets.token_urlsafe`) as explicit `String` parameters.
-/

namespace AutoAPI

/-! ### Association lists modelling Python dicts -/

def lookupA {β : Type} : List (String × β) → String → Option β
  | [], _ => none
  | (k, v) :: rest, key => if k = key then some v else lookupA rest key

def insertA {β : Type} : List (String × β) → String → β → List (String × β)
  | [], key, v => [(key, v)]
  | (k, w) :: rest, key, v =>
      if k = key then (key, v) :: rest else (k, w) :: insertA rest key v

def eraseA {β : Type} : List (String × β) → String → List (String × β)
  | [], _ => []
  | (k, w) :: rest, key => if k = key then rest else (k, w) :: eraseA rest key

def valuesA {β : Type} (l : List (String × β)) : List β := l.map Prod.snd

theorem lookupA_insertA_self {β : Type} (l : List (String × β)) (k : String) (v : β) :
    lookupA (insertA l k v) k = some v := by
  induction l with
  | nil => simp [insertA, lookupA]
  | cons hd tl ih =>
      obtain ⟨k', v'⟩ := hd
      by_cases h : k' = k
      · simp [insertA, lookupA, h]
      · simp [insertA, lookupA, h, ih]

theorem lookupA_insertA_ne {β : Type} (l : List (String × β)) (k k' : String) (v : β)
    (h : k ≠ k') : lookupA (insertA l k v) k' = lookupA l k' := by
  induction l with
  | nil => simp [insertA, lookupA, h]
  | cons hd tl ih =>
      obtain ⟨k₀, v₀⟩ := hd
      by_cases h₀ : k₀ = k
      · subst h₀
        simp [insertA, lookupA, h]
      · by_cases h₁ : k₀ = k'
        · simp [insertA, lookupA, h₀, h₁, Ne.symm h]
        · simp [insertA, lookupA, h₀, h₁, ih]

theorem eraseA_sublist {β : Type} (l : List (String × β)) (k : String) :
    (eraseA l k).Sublist l := by
  induction l with
  | nil => exact List.Sublist.refl _
  | cons hd tl ih =>
      obtain ⟨k₀, v₀⟩ := hd
      by_cases h₀ : k₀ = k
      · simp only [eraseA, h₀, if_pos]
        exact List.sublist_cons_self _ _
      · simpa [eraseA, h₀] using ih

theorem mem_eraseA {β : Type} {l : List (String × β)} {k : String} {p : String × β}
    (h : p ∈ eraseA l k) : p ∈ l := (eraseA_sublist l k).mem h

theorem mem_insertA {β : Type} {l : List (String × β)} {k : String} {v : β}
    {p : String × β} (h : p ∈ insertA l k v) : p = (k, v) ∨ p ∈ l := by
  induction l with
  | nil => simp [insertA] at h; simp [h]
  | cons hd tl ih =>
      obtain ⟨k₀, v₀⟩ := hd
      by_cases h₀ : k₀ = k
      · rcases (by simpa [insertA, h₀] using h : p = (k, v) ∨ p ∈ tl) with h₁ | h₁
        · exact Or.inl h₁
        · exact Or.inr (List.mem_cons_of_mem _ h₁)
      · rcases (by simpa [insertA, h₀] using h :
            p = (k₀, v₀) ∨ p ∈ insertA tl k v) with h₁ | h₁
        · exact Or.inr (by simp [h₁])
        · rcases ih h₁ with h₂ | h₂
          · exact Or.inl h₂
          · exact Or.inr (List.mem_cons_of_mem _ h₂)

theorem lookupA_mem {β : Type} {l : List (String × β)} {k : String} {v : β}
    (h : lookupA l k = some v) : (k, v) ∈ l := by
  induction l with
  | nil => simp [lookupA] at h
  | cons hd tl ih =>
      obtain ⟨k₀, v₀⟩ := hd
      by_cases h₀ : k₀ = k
      · subst h₀
        simp [lookupA] at h
        simp [h]
      · exact List.mem_cons_of_mem _ (ih (by simpa [lookupA, h₀] using h))

theorem lookupA_isSome_insertA {β : Type} (l : List (String × β)) (k k' : String)
    (v : β) (h : (lookupA l k').isSome) : (lookupA (insertA l k v) k').isSome := by
  by_cases h₀ : k = k'
  · subst h₀
    simp [lookupA_insertA_self]
  · rwa [lookupA_insertA_ne l k k' v h₀]

/-! ### Fibonrose service (src/services/fibonrose.py)

Reputation and logging: `log_event` appends to an in-memory log and, for
non-"system" users, updates the reputation ledger via `update_reputation`
(Python `_update_reputation`); `calculate_level` (Python `_calculate_level`)
maps a score to a named tier.
-/

/-- `FibonroseService.REPUTATION_IMPACTS`: fixed action → impact table. -/
def REPUTATION_IMPACTS : List (String × Int) :=
  [("auth_success", 5),
   ("code_generation_started", 10),
   ("code_generation_completed", 20),
   ("deployment_started", 15),
   ("deployment_completed", 50),
   ("api_entries_fetched", 1),
   ("auth_error", -5),
   ("code_generation_error", -10),
   ("deployment_error", -25)]

/-- `self.REPUTATION_IMPACTS.get(action, 0)`. -/
def impactFor (action : String) : Int :=
  (lookupA REPUTATION_IMPACTS action).getD 0

/-- One entry of `self.logs` (the dict built in `log_event`). -/
structure EventRecord where
  id : String
  action : String
  metadata : List (String × String)
  user : String
  timestamp : Nat
  reputation_impact : Int
  deriving DecidableEq

/-- One entry of a reputation record's `history` list. -/
structure HistoryItem where
  action : String
  impact : Int
  timestamp : Nat
  deriving DecidableEq

/-- One value of `self.reputation` (the per-user dict). -/
structure RepEntry where
  username : String
  score : Int
  level : String
  total_actions : Nat
  last_activity : Nat
  history : List HistoryItem
  deriving DecidableEq

/-- The in-memory state of `FibonroseService`: `self.logs`, `self.reputation`. -/
structure FibState where
  logs : List EventRecord
  reputation : List (String × RepEntry)
  deriving DecidableEq

def FibState.empty : FibState := ⟨[], []⟩

/-- `FibonroseService._calculate_level`. -/
def calculate_level (score : Int) : String :=
  if score < 50 then "Novice"
  else if score < 150 then "Apprentice"
  else if score < 300 then "Adept"
  else if score < 500 then "Expert"
  else if score < 1000 then "Master"
  else "Grandmaster"

/-- `FibonroseService._update_reputation` (the Python method mutates
`self.reputation[username]` in place; here the updated state is returned). -/
def update_reputation (st : FibState) (username : String) (impact : Int)
    (action : String) (now : Nat) : FibState :=
  let rep0 : RepEntry :=
    (lookupA st.reputation username).getD
      { username := username, score := 0, level := "Novice",
        total_actions := 0, last_activity := now, history := [] }
  let rep1 : RepEntry :=
    { rep0 with
      score := rep0.score + impact,
      total_actions := rep0.total_actions + 1,
      last_activity := now,
      history := rep0.history ++ [⟨action, impact, now⟩] }
  let rep2 : RepEntry := { rep1 with level := calculate_level rep1.score }
  { st with reputation := insertA st.reputation username rep2 }

/-- `FibonroseService.log_event`; `id` stands for the fresh `uuid.uuid4()` and
`now` for `datetime.utcnow()`. Returns the new state and the log entry. -/
def log_event (st : FibState) (id : String) (action : String)
    (metadata : List (String × String)) (user : String) (now : Nat) :
    FibState × EventRecord :=
  let reputation_impact := impactFor action
  let log_entry : EventRecord :=
    { id := id, action := action, metadata := metadata, user := user,
      timestamp := now, reputation_impact := reputation_impact }
  let st1 : FibState := { st with logs := st.logs ++ [log_entry] }
  let st2 : FibState :=
    if user = "system" then st1
    else update_reputation st1 user reputation_impact action now
  (st2, log_entry)

/-- The score `get_reputation` reports for `username` (0 when absent). -/
def scoreOf (st : FibState) (username : String) : Int :=
  match lookupA st.reputation username with
  | none => 0
  | some rep => rep.score

/-- Arguments of one `log_event` call. -/
structure LogCall where
  id : String
  action : String
  metadata : List (String × String)
  user : String
  now : Nat
  deriving DecidableEq

/-- Run a sequence of `log_event` calls from a given state. -/
def runLog (st : FibState) (calls : List LogCall) : FibState :=
  calls.foldl (fun s c => (log_event s c.id c.action c.metadata c.user c.now).1) st

/-- Sum of `reputation_impact` over the log entries whose `user` is `u`. -/
def sumImpacts (logs : List EventRecord) (u : String) : Int :=
  ((logs.filter (fun e => e.user = u)).map (fun e => e.reputation_impact)).sum

/-- The six tier names of `_calculate_level`, lowest first. -/
def tierNames : List String :=
  ["Novice", "Apprentice", "Adept", "Expert", "Master", "Grandmaster"]

/-- The five strictly increasing score cutoffs separating the six tiers. -/
def levelCutoffs : List Int := [50, 150, 300, 500, 1000]

/-- Tier index of a score: the number of cutoffs at or below it. -/
def tierIdx (score : Int) : Nat :=
  (levelCutoffs.filter (fun c => c ≤ score)).length

theorem calculate_level_eq_tier (s : Int) :
    calculate_level s = tierNames.getD (tierIdx s) "Novice" := by
  unfold calculate_level tierIdx levelCutoffs tierNames
  by_cases h1 : s < 50
  · have h2 : ¬(50 : Int) ≤ s := by omega
    have h3 : ¬(150 : Int) ≤ s := by omega
    have h4 : ¬(300 : Int) ≤ s := by omega
    have h5 : ¬(500 : Int) ≤ s := by omega
    have h6 : ¬(1000 : Int) ≤ s := by omega
    simp [h1, h2, h3, h4, h5, h6, List.filter]
  · by_cases h2 : s < 150
    · have : (50 : Int) ≤ s := by omega
      have h3 : ¬(150 : Int) ≤ s := by omega
      have h4 : ¬(300 : Int) ≤ s := by omega
      have h5 : ¬(500 : Int) ≤ s := by omega
      have h6 : ¬(1000 : Int) ≤ s := by omega
      simp [h1, h2, this, h3, h4, h5, h6, List.filter]
    · by_cases h3 : s < 300
      · have g1 : (50 : Int) ≤ s := by omega
        have g2 : (150 : Int) ≤ s := by omega
        have h4 : ¬(300 : Int) ≤ s := by omega
        have h5 : ¬(500 : Int) ≤ s := by omega
        have h6 : ¬(1000 : Int) ≤ s := by omega
        simp [h1, h2, h3, g1, g2, h4, h5, h6, List.filter]
      · by_cases h4 : s < 500
        · have g1 : (50 : Int) ≤ s := by omega
          have g2 : (150 : Int) ≤ s := by omega
          have g3 : (300 : Int) ≤ s := by omega
          have h5 : ¬(500 : Int) ≤ s := by omega
          have h6 : ¬(1000 : Int) ≤ s := by omega
          simp [h1, h2, h3, h4, g1, g2, g3, h5, h6, List.filter]
        · by_cases h5 : s < 1000
          · have g1 : (50 : Int) ≤ s := by omega
            have g2 : (150 : Int) ≤ s := by omega
            have g3 : (300 : Int) ≤ s := by omega
            have g4 : (500 : Int) ≤ s := by omega
            have h6 : ¬(1000 : Int) ≤ s := by omega
            simp [h1, h2, h3, h4, h5, g1, g2, g3, g4, h6, List.filter]
          · have g1 : (50 : Int) ≤ s := by omega
            have g2 : (150 : Int) ≤ s := by omega
            have g3 : (300 : Int) ≤ s := by omega
            have g4 : (500 : Int) ≤ s := by omega
            have g5 : (1000 : Int) ≤ s := by omega
            simp [h1, h2, h3, h4, h5, g1, g2, g3, g4, g5, List.filter]

theorem tierIdx_mono {s t : Int} (h : s ≤ t) : tierIdx s ≤ tierIdx t := by
  unfold tierIdx
  exact List.Sublist.length_le
    (List.monotone_filter_right levelCutoffs
      (fun c hc => by simp at hc ⊢; omega))

/-- Claim C2: the level function has six tiers over strictly increasing
cutoffs; score 0 is in the lowest tier; the tier of a score is determined by
how many cutoffs it has reached (so a score at or above a cutoff and below the
next is in that cutoff's tier); the tier index is monotone in the score, and
each tier is attained on a contiguous score interval. -/
theorem fibonrose_level_monotone_tiers :
    List.Chain' (fun a b => a < b) levelCutoffs
    ∧ tierNames.length = 6
    ∧ levelCutoffs.length = 5
    ∧ calculate_level 0 = "Novice"
    ∧ (∀ s : Int, calculate_level s = tierNames.getD (tierIdx s) "Novice")
    ∧ (∀ s t : Int, s ≤ t → tierIdx s ≤ tierIdx t)
    ∧ (∀ s t u : Int, s ≤ t → t ≤ u → tierIdx s = tierIdx u →
        tierIdx t = tierIdx s) := by
  refine ⟨by norm_num [levelCutoffs, List.chain'_cons], by decide, by decide, by decide,
    calculate_level_eq_tier, fun s t h => tierIdx_mono h, ?_⟩
  intro s t u hst htu hsu
  have h1 := tierIdx_mono hst
  have h2 := tierIdx_mono htu
  omega

theorem fibonrose_level_monotone_tiers_witness :
    tierIdx 49 ≤ tierIdx 50
    ∧ calculate_level 49 = "Novice"
    ∧ calculate_level 50 = "Apprentice"
    ∧ calculate_level 1000 = "Grandmaster" :=
  ⟨fibonrose_level_monotone_tiers.2.2.2.2.2.1 49 50 (by decide),
   by decide, by decide, by decide⟩

/-- Claim C10: every score strictly below the first cutoff, negative scores
included, is mapped to "Novice"; "Novice" is the lowest tier (tier index 0 is
attained exactly below the first cutoff), and the function is total: every
score is mapped to one of the six tier names. -/
theorem fibonrose_level_novice_floor :
    (∀ s : Int, s < 50 → calculate_level s = "Novice")
    ∧ tierNames.get? 0 = some "Novice"
    ∧ (∀ s : Int, tierIdx s = 0 ↔ s < 50)
    ∧ (∀ s : Int, calculate_level s ∈ tierNames) := by
  refine ⟨?_, by decide, ?_, ?_⟩
  · intro s h
    simp [calculate_level, h]
  · intro s
    constructor
    · intro h
      by_contra hlt
      have h50 : (50 : Int) ≤ s := by omega
      have : tierIdx 50 ≤ tierIdx s := tierIdx_mono h50
      have : (1 : Nat) ≤ tierIdx s := le_trans (by decide) this
      omega
    · intro h
      have : tierIdx s ≤ tierIdx 49 := tierIdx_mono (by omega)
      have h49 : tierIdx 49 = 0 := by decide
      omega
  · intro s
    rw [calculate_level_eq_tier]
    have hlen : tierIdx s ≤ 5 := by
      unfold tierIdx
      have := List.length_filter_le (fun c => decide (c ≤ s)) levelCutoffs
      simpa [levelCutoffs] using this
    interval_cases h : tierIdx s <;> simp [tierNames]

theorem fibonrose_level_novice_floor_witness :
    calculate_level (-100) = "Novice" ∧ (tierIdx (-100) = 0 ↔ (-100 : Int) < 50) :=
  ⟨fibonrose_level_novice_floor.1 (-100) (by decide),
   fibonrose_level_novice_floor.2.2.1 (-100)⟩

theorem sumImpacts_append (logs : List EventRecord) (e : EventRecord) (u : String) :
    sumImpacts (logs ++ [e]) u =
      sumImpacts logs u + (if e.user = u then e.reputation_impact else 0) := by
  unfold sumImpacts
  by_cases h : e.user = u <;> simp [h, List.filter_append]

theorem scoreOf_update_self (st : FibState) (w : String) (imp : Int)
    (a : String) (now : Nat) :
    scoreOf (update_reputation st w imp a now) w = scoreOf st w + imp := by
  unfold update_reputation scoreOf
  rw [lookupA_insertA_self]
  cases h : lookupA st.reputation w <;> simp [h]

theorem scoreOf_update_ne (st : FibState) (w u : String) (imp : Int)
    (a : String) (now : Nat) (h : w ≠ u) :
    scoreOf (update_reputation st w imp a now) u = scoreOf st u := by
  unfold update_reputation scoreOf
  rw [lookupA_insertA_ne _ _ _ _ h]

theorem update_reputation_logs (st : FibState) (w : String) (imp : Int)
    (a : String) (now : Nat) :
    (update_reputation st w imp a now).logs = st.logs := rfl

/-- The reputation-vs-log-sum invariant of the Fibonrose state. -/
def FibInv (st : FibState) : Prop :=
  ∀ u : String, u ≠ "system" → scoreOf st u = sumImpacts st.logs u

theorem FibInv_empty : FibInv FibState.empty := by
  intro u _
  simp [FibState.empty, scoreOf, sumImpacts, lookupA]

/-- The log entry `log_event` builds from its arguments. -/
def logEntryOf (id action : String) (md : List (String × String))
    (user : String) (now : Nat) : EventRecord :=
  { id := id, action := action, metadata := md, user := user,
    timestamp := now, reputation_impact := impactFor action }

theorem log_event_state_eq (st : FibState) (id action : String)
    (md : List (String × String)) (user : String) (now : Nat) :
    (log_event st id action md user now).1 =
      if user = "system" then
        { st with logs := st.logs ++ [logEntryOf id action md user now] }
      else
        update_reputation
          { st with logs := st.logs ++ [logEntryOf id action md user now] }
          user (impactFor action) action now := by
  unfold log_event logEntryOf
  by_cases h : user = "system" <;> simp [h]

theorem scoreOf_logs_irrel (logs logs' : List EventRecord)
    (rep : List (String × RepEntry)) (u : String) :
    scoreOf ⟨logs, rep⟩ u = scoreOf ⟨logs', rep⟩ u := rfl

theorem FibInv_log_event (st : FibState) (id action : String)
    (md : List (String × String)) (user : String) (now : Nat)
    (h : FibInv st) : FibInv (log_event st id action md user now).1 := by
  intro u hu
  rw [log_event_state_eq]
  by_cases hsys : user = "system"
  · have huser : user ≠ u := by
      rw [hsys]; exact fun he => hu he.symm
    rw [if_pos hsys]
    show scoreOf st u = sumImpacts (st.logs ++ [logEntryOf id action md user now]) u
    rw [sumImpacts_append, h u hu]
    simp [logEntryOf, huser]
  · rw [if_neg hsys]
    by_cases heq : user = u
    · subst heq
      rw [scoreOf_update_self, update_reputation_logs]
      show scoreOf st user + _ =
        sumImpacts (st.logs ++ [logEntryOf id action md user now]) user
      rw [sumImpacts_append, h user hu]
      simp [logEntryOf]
    · rw [scoreOf_update_ne _ _ _ _ _ _ heq, update_reputation_logs]
      show scoreOf st u = sumImpacts (st.logs ++ [logEntryOf id action md user now]) u
      rw [sumImpacts_append, h u hu]
      simp [logEntryOf, heq]

theorem FibInv_runLog (st : FibState) (calls : List LogCall) (h : FibInv st) :
    FibInv (runLog st calls) := by
  induction calls generalizing st with
  | nil => exact h
  | cons c rest ih =>
      exact ih _ (FibInv_log_event st c.id c.action c.metadata c.user c.now h)

/-- Claim C1: after any sequence of `log_event` calls from the empty state,
the reputation score of every user other than "system" equals the sum of the
`reputation_impact` fields of the logged records tagged with that user. -/
theorem fibonrose_score_is_sum_of_impacts (calls : List LogCall) (u : String)
    (hu : u ≠ "system") :
    scoreOf (runLog FibState.empty calls) u =
      sumImpacts (runLog FibState.empty calls).logs u :=
  FibInv_runLog FibState.empty calls FibInv_empty u hu

theorem fibonrose_score_is_sum_of_impacts_witness :
    scoreOf (runLog FibState.empty
        [⟨"a", "auth_success", [], "alice", 0⟩,
         ⟨"b", "deployment_error", [], "alice", 1⟩,
         ⟨"c", "auth_success", [], "bob", 2⟩,
         ⟨"d", "api_entries_fetched", [], "system", 3⟩]) "alice" =
      sumImpacts (runLog FibState.empty
        [⟨"a", "auth_success", [], "alice", 0⟩,
         ⟨"b", "deployment_error", [], "alice", 1⟩,
         ⟨"c", "auth_success", [], "bob", 2⟩,
         ⟨"d", "api_entries_fetched", [], "system", 3⟩]).logs "alice" :=
  fibonrose_score_is_sum_of_impacts _ "alice" (by decide)

/-! ### DeafAUTH service (src/services/deafauth.py)

Token and user stores.  `authenticate` issues a token (24h expiry) and
creates/updates the user record; `verify_token` checks presence and expiry
(deleting expired tokens) and returns the username plus the stored user
record; `revoke_token` deletes a token.  The fresh `secrets.token_urlsafe(32)`
value and `datetime.utcnow()` readings are explicit parameters.
-/

/-- One value of `self.tokens`. -/
structure TokenData where
  username : String
  created_at : Nat
  expires_at : Nat
  deriving DecidableEq

/-- One value of `self.users`. -/
structure UserData where
  username : String
  created_at : Nat
  last_login : Nat
  deriving DecidableEq

/-- The in-memory state of `DeafAuthService`: `self.tokens`, `self.users`. -/
structure AuthState where
  tokens : List (String × TokenData)
  users : List (String × UserData)
  deriving DecidableEq

def AuthState.empty : AuthState := ⟨[], []⟩

/-- `timedelta(hours=24)` in seconds. -/
def TOKEN_TTL : Nat := 24 * 3600

/-- `DeafAuthService.authenticate`: stores the token, then creates the user
record or refreshes its `last_login`.  Returns the new state together with
the issued token and its expiry. -/
def authenticate (st : AuthState) (username token : String) (now : Nat) :
    AuthState × String × Nat :=
  let expires_at := now + TOKEN_TTL
  let st1 : AuthState :=
    { st with tokens := insertA st.tokens token ⟨username, now, expires_at⟩ }
  let st2 : AuthState :=
    match lookupA st1.users username with
    | none =>
        { st1 with users := insertA st1.users username ⟨username, now, now⟩ }
    | some u =>
        { st1 with users := insertA st1.users username { u with last_login := now } }
  (st2, token, expires_at)

/-- The successful payload of `verify_token` (username, token, `**user`). -/
structure VerifyResult where
  username : String
  token : String
  user : UserData
  deriving DecidableEq

/-- `DeafAuthService.verify_token`: `None` on unknown token; on an expired
token (`utcnow() > expires_at`) delete it and return `None`; otherwise look up
the user record, returning `None` when it is missing.  Returns the result and
the (possibly changed) state. -/
def verify_token (st : AuthState) (token : String) (now : Nat) :
    Option VerifyResult × AuthState :=
  match lookupA st.tokens token with
  | none => (none, st)
  | some token_data =>
      if token_data.expires_at < now then
        (none, { st with tokens := eraseA st.tokens token })
      else
        match lookupA st.users token_data.username with
        | none => (none, st)
        | some user => (some ⟨token_data.username, token, user⟩, st)

/-- `DeafAuthService.revoke_token`. -/
def revoke_token (st : AuthState) (token : String) : AuthState × Bool :=
  match lookupA st.tokens token with
  | some _ => ({ st with tokens := eraseA st.tokens token }, true)
  | none => (st, false)

/-- Counterexample to claim C3 as stated: in a raw store state holding a
valid, unexpired token whose username has no user record, `verify_token`
returns `none` instead of the username and user record. -/
theorem verify_token_missing_user_counterexample :
    (lookupA (AuthState.mk [("t", ⟨"alice", 0, 100⟩)] []).tokens "t"
      = some ⟨"alice", 0, 100⟩)
    ∧ ¬ ((100 : Nat) < 50)
    ∧ (verify_token (AuthState.mk [("t", ⟨"alice", 0, 100⟩)] []) "t" 50).1 = none := by
  refine ⟨rfl, by omega, rfl⟩

/-- Claim C3 (amended): `verify_token` returns `none` and leaves the state
unchanged on an unknown token; on a token past its expiry it returns `none`
and deletes the token; on an unexpired token whose username has a stored user
record it returns the username, token and record, leaving the state
unchanged; and on an unexpired token whose username has no user record it
returns `none` and leaves the state unchanged. -/
theorem verify_token_cases (st : AuthState) (t : String) (now : Nat) :
    (lookupA st.tokens t = none → verify_token st t now = (none, st))
    ∧ (∀ td : TokenData, lookupA st.tokens t = some td → td.expires_at < now →
        verify_token st t now = (none, { st with tokens := eraseA st.tokens t }))
    ∧ (∀ td : TokenData, ∀ u : UserData, lookupA st.tokens t = some td →
        ¬ td.expires_at < now → lookupA st.users td.username = some u →
        verify_token st t now = (some ⟨td.username, t, u⟩, st))
    ∧ (∀ td : TokenData, lookupA st.tokens t = some td →
        ¬ td.expires_at < now → lookupA st.users td.username = none →
        verify_token st t now = (none, st)) := by
  refine ⟨?_, ?_, ?_, ?_⟩
  · intro h
    simp [verify_token, h]
  · intro td h hexp
    simp [verify_token, h, hexp]
  · intro td u h hexp hu
    simp [verify_token, h, hexp, hu]
  · intro td h hexp hu
    simp [verify_token, h, hexp, hu]

theorem verify_token_cases_witness :
    verify_token (AuthState.mk [("t", ⟨"alice", 0, 100⟩)]
        [("alice", ⟨"alice", 0, 0⟩)]) "t" 50
      = (some ⟨"alice", "t", ⟨"alice", 0, 0⟩⟩,
         AuthState.mk [("t", ⟨"alice", 0, 100⟩)] [("alice", ⟨"alice", 0, 0⟩)])
    ∧ verify_token (AuthState.mk [("t", ⟨"alice", 0, 100⟩)]
        [("alice", ⟨"alice", 0, 0⟩)]) "t" 101
      = (none, AuthState.mk [] [("alice", ⟨"alice", 0, 0⟩)])
    ∧ verify_token AuthState.empty "t" 0 = (none, AuthState.empty) :=
  ⟨(verify_token_cases _ "t" 50).2.2.1 ⟨"alice", 0, 100⟩ ⟨"alice", 0, 0⟩ rfl
      (by decide) rfl,
   (verify_token_cases _ "t" 101).2.1 ⟨"alice", 0, 100⟩ rfl (by decide),
   (verify_token_cases AuthState.empty "t" 0).1 rfl⟩

/-- One operation against the `DeafAuthService` state. -/
inductive AuthOp where
  | auth (username token : String) (now : Nat)
  | verify (token : String) (now : Nat)
  | revoke (token : String)
  deriving DecidableEq

/-- Apply one operation to the auth state. -/
def stepAuth (st : AuthState) : AuthOp → AuthState
  | .auth username token now => (authenticate st username token now).1
  | .verify token now => (verify_token st token now).2
  | .revoke token => (revoke_token st token).1

/-- Run a sequence of operations from the empty auth state. -/
def runAuth (ops : List AuthOp) : AuthState :=
  ops.foldl stepAuth AuthState.empty

/-- Every token store entry names a username present in the user store. -/
def TokensBackedByUsers (st : AuthState) : Prop :=
  ∀ p ∈ st.tokens, (lookupA st.users p.2.username).isSome

theorem tokensBacked_empty : TokensBackedByUsers AuthState.empty := by
  intro p hp
  simp [AuthState.empty] at hp

theorem tokensBacked_authenticate (st : AuthState) (username token : String)
    (now : Nat) (h : TokensBackedByUsers st) :
    TokensBackedByUsers (authenticate st username token now).1 := by
  intro p hp
  unfold authenticate at hp ⊢
  cases hu : lookupA st.users username with
  | none =>
      simp only [hu] at hp ⊢
      rcases mem_insertA hp with h₁ | h₁
      · subst h₁
        simp [lookupA_insertA_self]
      · exact lookupA_isSome_insertA _ _ _ _ (h p h₁)
  | some u =>
      simp only [hu] at hp ⊢
      rcases mem_insertA hp with h₁ | h₁
      · subst h₁
        simp [lookupA_insertA_self]
      · exact lookupA_isSome_insertA _ _ _ _ (h p h₁)

theorem verify_token_users (st : AuthState) (token : String) (now : Nat) :
    (verify_token st token now).2.users = st.users := by
  unfold verify_token
  cases ht : lookupA st.tokens token with
  | none => rfl
  | some td =>
      by_cases hexp : td.expires_at < now
      · simp [hexp]
      · cases hu : lookupA st.users td.username <;> simp [hexp, hu]

theorem revoke_token_users (st : AuthState) (token : String) :
    (revoke_token st token).1.users = st.users := by
  unfold revoke_token
  cases ht : lookupA st.tokens token <;> rfl

theorem tokensBacked_verify (st : AuthState) (token : String) (now : Nat)
    (h : TokensBackedByUsers st) :
    TokensBackedByUsers (verify_token st token now).2 := by
  intro p hp
  rw [verify_token_users]
  unfold verify_token at hp
  cases ht : lookupA st.tokens token with
  | none =>
      simp only [ht] at hp
      exact h p hp
  | some td =>
      simp only [ht] at hp
      by_cases hexp : td.expires_at < now
      · simp only [hexp, if_pos, if_true] at hp
        exact h p (mem_eraseA hp)
      · simp only [hexp, if_neg, if_false] at hp
        cases hu : lookupA st.users td.username with
        | none => simp only [hu] at hp; exact h p hp
        | some u => simp only [hu] at hp; exact h p hp

theorem tokensBacked_revoke (st : AuthState) (token : String)
    (h : TokensBackedByUsers st) :
    TokensBackedByUsers (revoke_token st token).1 := by
  intro p hp
  rw [revoke_token_users]
  unfold revoke_token at hp
  cases ht : lookupA st.tokens token with
  | none => simp only [ht] at hp; exact h p hp
  | some td =>
      simp only [ht] at hp
      exact h p (mem_eraseA hp)

theorem tokensBacked_step (st : AuthState) (op : AuthOp)
    (h : TokensBackedByUsers st) : TokensBackedByUsers (stepAuth st op) := by
  cases op with
  | auth username token now => exact tokensBacked_authenticate st username token now h
  | verify token now => exact tokensBacked_verify st token now h
  | revoke token => exact tokensBacked_revoke st token h

theorem tokensBacked_runAuth (ops : List AuthOp) :
    TokensBackedByUsers (runAuth ops) := by
  suffices h : ∀ st, TokensBackedByUsers st →
      TokensBackedByUsers (ops.foldl stepAuth st) from
    h AuthState.empty tokensBacked_empty
  induction ops with
  | nil => exact fun st h => h
  | cons op rest ih => exact fun st h => ih _ (tokensBacked_step st op h)

/-- Claim C9: in every state reachable from the empty stores by
`authenticate` / `verify_token` / `revoke_token`, every stored token maps to a
username present in the user store, and consequently `verify_token` applied
to any stored, unexpired token succeeds — the missing-user `None` branch is
unreachable. -/
theorem deafauth_tokens_backed_by_users (ops : List AuthOp) :
    (∀ t : String, ∀ td : TokenData,
        lookupA (runAuth ops).tokens t = some td →
        ∃ u : UserData, lookupA (runAuth ops).users td.username = some u)
    ∧ (∀ t : String, ∀ td : TokenData, ∀ now : Nat,
        lookupA (runAuth ops).tokens t = some td → ¬ td.expires_at < now →
        (verify_token (runAuth ops) t now).1.isSome) := by
  have hb := tokensBacked_runAuth ops
  constructor
  · intro t td ht
    have := hb (t, td) (lookupA_mem ht)
    rcases Option.isSome_iff_exists.mp this with ⟨u, hu⟩
    exact ⟨u, hu⟩
  · intro t td now ht hexp
    have := hb (t, td) (lookupA_mem ht)
    rcases Option.isSome_iff_exists.mp this with ⟨u, hu⟩
    have := (verify_token_cases (runAuth ops) t now).2.2.1 td u ht hexp hu
    simp [this]

theorem deafauth_tokens_backed_by_users_witness :
    (∃ u : UserData,
      lookupA (runAuth [.auth "alice" "t" 0]).users
        (⟨"alice", 0, TOKEN_TTL⟩ : TokenData).username = some u)
    ∧ (verify_token (runAuth [.auth "alice" "t" 0]) "t" 10).1.isSome :=
  ⟨(deafauth_tokens_backed_by_users [.auth "alice" "t" 0]).1 "t"
      ⟨"alice", 0, TOKEN_TTL⟩ rfl,
   (deafauth_tokens_backed_by_users [.auth "alice" "t" 0]).2 "t"
      ⟨"alice", 0, TOKEN_TTL⟩ 10 rfl (by decide)⟩

/-! ### PinkSync service (src/services/pinksync.py)

Simulated deployment: `deploy` derives a slug and URL from the API name,
produces a fixed scripted log sequence, stores the record with status
"deployed", and returns id/url/status/logs.  The `asyncio.sleep` calls only
simulate elapsed time and are dropped; `uuid.uuid4()` and `utcnow()` are
explicit parameters.
-/

/-- One deployment log line (`models.DeploymentLog`); the wall-clock string
`strftime("%H:%M:%S")` is abstracted to the `now` reading. -/
structure DepLogLine where
  timestamp : Nat
  message : String
  type : String
  deriving DecidableEq

/-- `PinkSyncService._create_log`. -/
def create_log (now : Nat) (message log_type : String) : DepLogLine :=
  { timestamp := now, message := message, type := log_type }

/-- `api_name.lower().replace(' ', '-').replace('_', '-')`, realised
character-by-character (single-character replace is a character map). -/
def slugify (api_name : String) : String :=
  ⟨((api_name.toList.map Char.toLower).map
      (fun c => if c = ' ' then '-' else c)).map
    (fun c => if c = '_' then '-' else c)⟩

/-- `api_name.replace(' ', '')`. -/
def stripSpaces (api_name : String) : String :=
  ⟨api_name.toList.filter (fun c => c ≠ ' ')⟩

/-- The scripted deployment log sequence of `deploy`. -/
def deployLogs (now : Nat) (api_name : String) : List DepLogLine :=
  let api_slug := slugify api_name
  [create_log now "🚀 PinkSync: Initiating deployment..." "info",
   create_log now "📦 Creating API endpoint files..." "info",
   create_log now ("✅ Created: api/" ++ api_slug ++ ".js") "success",
   create_log now "🎨 Generating React component..." "info",
   create_log now ("✅ Created: components/" ++ stripSpaces api_name ++ ".jsx") "success",
   create_log now "📝 Writing configuration files..." "info",
   create_log now "✅ Configuration files ready" "success",
   create_log now "☁️ Pushing to GitHub..." "info",
   create_log now "✅ Code committed to repository" "success",
   create_log now "🚀 Triggering deployment..." "info",
   create_log now "✅ Build started" "success",
   create_log now "⚡ Building production bundle..." "info",
   create_log now "✅ Build completed successfully" "success",
   create_log now "🌐 Deploying to mbtq.dev..." "info",
   create_log now ("✅ Live at: https://mbtq.dev/api/" ++ api_slug) "success",
   create_log now "🎯 Deployment complete!" "success"]

/-- One value of `self.deployments`. -/
structure DeploymentInfo where
  deployment_id : String
  api_name : String
  api_slug : String
  url : String
  status : String
  logs : List DepLogLine
  user : String
  code : String
  config : List (String × String)
  created_at : Nat
  updated_at : Nat
  deriving DecidableEq

/-- The response value of `deploy`. -/
structure DeployResult where
  deployment_id : String
  url : String
  status : String
  logs : List DepLogLine
  deriving DecidableEq

/-- The in-memory state of `PinkSyncService`: `self.deployments`. -/
structure PinkState where
  deployments : List (String × DeploymentInfo)
  deriving DecidableEq

def PinkState.empty : PinkState := ⟨[]⟩

/-- `PinkSyncService.deploy`; `deployment_id` stands for `uuid.uuid4()` and
`now` for the `utcnow()` readings. -/
def deploy (st : PinkState) (deployment_id api_name code : String)
    (config : List (String × String)) (user : String) (now : Nat) :
    PinkState × DeployResult :=
  let api_slug := slugify api_name
  let deployment_url := "https://mbtq.dev/api/" ++ api_slug
  let logs := deployLogs now api_name
  let deployment_info : DeploymentInfo :=
    { deployment_id := deployment_id, api_name := api_name,
      api_slug := api_slug, url := deployment_url, status := "deployed",
      logs := logs, user := user, code := code, config := config,
      created_at := now, updated_at := now }
  ({ st with deployments := insertA st.deployments deployment_id deployment_info },
   { deployment_id := deployment_id, url := deployment_url,
     status := "deployed", logs := logs })

/-- The response value of `get_deployment_status` (raises on unknown id,
modelled as `Option`). -/
structure DeploymentStatus where
  deployment_id : String
  api_name : String
  url : String
  status : String
  created_at : Nat
  updated_at : Nat
  deriving DecidableEq

/-- `PinkSyncService.get_deployment_status`: a pure read. -/
def get_deployment_status (st : PinkState) (deployment_id : String) :
    Option DeploymentStatus :=
  match lookupA st.deployments deployment_id with
  | none => none
  | some d => some ⟨deployment_id, d.api_name, d.url, d.status,
      d.created_at, d.updated_at⟩

/-- One row of the `get_user_deployments` response. -/
structure DeploymentSummary where
  deployment_id : String
  api_name : String
  url : String
  status : String
  created_at : Nat
  deriving DecidableEq

/-- `PinkSyncService.get_user_deployments`: owner-filtered list, sorted by
`created_at` most-recent-first (stable descending sort), truncated. -/
def get_user_deployments (st : PinkState) (username : String) (limit : Nat) :
    List DeploymentSummary :=
  let user_deployments :=
    ((valuesA st.deployments).filter (fun d => d.user = username)).map
      (fun d => (⟨d.deployment_id, d.api_name, d.url, d.status,
        d.created_at⟩ : DeploymentSummary))
  (user_deployments.mergeSort (fun a b => b.created_at ≤ a.created_at)).take limit

/-- `PinkSyncService.delete_deployment`. -/
def delete_deployment (st : PinkState) (deployment_id : String) :
    PinkState × Bool :=
  match lookupA st.deployments deployment_id with
  | some _ => ({ st with deployments := eraseA st.deployments deployment_id }, true)
  | none => (st, false)

/-- Claim C5: `deploy` returns a non-empty scripted log and the URL
`https://mbtq.dev/api/<slug>` where the slug is the lowercased name with
spaces and underscores replaced by dashes, so the URL ends in `/` followed by
the slug; the log sequence, URL and final "deployed" status are identical for
any submitted code and config. -/
theorem pinksync_deploy_deterministic (st : PinkState)
    (id name code : String) (config : List (String × String))
    (user : String) (now : Nat) :
    (deploy st id name code config user now).2.logs ≠ []
    ∧ (deploy st id name code config user now).2.logs = deployLogs now name
    ∧ (deploy st id name code config user now).2.url
        = "https://mbtq.dev/api/" ++ slugify name
    ∧ (∃ p : String, (deploy st id name code config user now).2.url
        = p ++ ("/" ++ slugify name))
    ∧ (deploy st id name code config user now).2.status = "deployed"
    ∧ (∀ code' : String, ∀ config' : List (String × String),
        (deploy st id name code' config' user now).2
          = (deploy st id name code config user now).2) := by
  refine ⟨?_, rfl, rfl, ⟨"https://mbtq.dev/api", rfl⟩, rfl, fun code' config' => rfl⟩
  simp [deploy, deployLogs]

theorem pinksync_deploy_deterministic_witness :
    slugify "Test API" = "test-api"
    ∧ (deploy PinkState.empty "d1" "Test API" "print(1)" [] "alice" 0).2.url
        = "https://mbtq.dev/api/test-api"
    ∧ (deploy PinkState.empty "d1" "Test API" "print(1)" [] "alice" 0).2.logs ≠ [] :=
  ⟨by decide,
   (pinksync_deploy_deterministic PinkState.empty "d1" "Test API" "print(1)"
      [] "alice" 0).2.2.1.trans (by decide),
   (pinksync_deploy_deterministic PinkState.empty "d1" "Test API" "print(1)"
      [] "alice" 0).1⟩

/-- One operation against the `PinkSyncService` state. -/
inductive DepOp where
  | deployOp (id name code : String) (config : List (String × String))
      (user : String) (now : Nat)
  | statusOp (id : String)
  | listOp (user : String) (limit : Nat)
  | deleteOp (id : String)
  deriving DecidableEq

/-- Apply one operation to the deployment state (`get_deployment_status` and
`get_user_deployments` are pure reads). -/
def stepDep (st : PinkState) : DepOp → PinkState
  | .deployOp id name code config user now =>
      (deploy st id name code config user now).1
  | .statusOp _ => st
  | .listOp _ _ => st
  | .deleteOp id => (delete_deployment st id).1

/-- Run a sequence of operations from the empty deployment state. -/
def runDep (ops : List DepOp) : PinkState :=
  ops.foldl stepDep PinkState.empty

/-- `op` writes the deployment-store key `id` (only `deploy` writes). -/
def opWritesAt (op : DepOp) (id : String) : Prop :=
  match op with
  | .deployOp id' _ _ _ _ _ => id' = id
  | _ => False

instance (op : DepOp) (id : String) : Decidable (opWritesAt op id) := by
  cases op <;> simp [opWritesAt] <;> infer_instance

/-- Every stored deployment record has status "deployed". -/
def AllDeployed (st : PinkState) : Prop :=
  ∀ p ∈ st.deployments, p.2.status = "deployed"

theorem allDeployed_empty : AllDeployed PinkState.empty := by
  intro p hp
  simp [PinkState.empty] at hp

theorem allDeployed_step (st : PinkState) (op : DepOp)
    (h : AllDeployed st) : AllDeployed (stepDep st op) := by
  cases op with
  | deployOp id name code config user now =>
      intro p hp
      unfold stepDep deploy at hp
      rcases mem_insertA hp with h₁ | h₁
      · rw [h₁]
      · exact h p h₁
  | statusOp id => exact h
  | listOp user limit => exact h
  | deleteOp id =>
      intro p hp
      unfold stepDep delete_deployment at hp
      cases hl : lookupA st.deployments id with
      | none => simp only [hl] at hp; exact h p hp
      | some d =>
          simp only [hl] at hp
          exact h p (mem_eraseA hp)

theorem allDeployed_runDep (ops : List DepOp) : AllDeployed (runDep ops) := by
  suffices h : ∀ st, AllDeployed st → AllDeployed (ops.foldl stepDep st) from
    h PinkState.empty allDeployed_empty
  induction ops with
  | nil => exact fun st h => h
  | cons op rest ih => exact fun st h => ih _ (allDeployed_step st op h)

/-- The keys of an association list are pairwise distinct. -/
def NodupKeys {β : Type} (l : List (String × β)) : Prop :=
  (l.map Prod.fst).Nodup

theorem mem_keys_insertA {β : Type} {l : List (String × β)} {k a : String}
    {v : β} (h : a ∈ (insertA l k v).map Prod.fst) :
    a = k ∨ a ∈ l.map Prod.fst := by
  rcases List.mem_map.mp h with ⟨p, hp, hpa⟩
  rcases mem_insertA hp with h₁ | h₁
  · left; rw [← hpa, h₁]
  · right; exact hpa ▸ List.mem_map_of_mem _ h₁

theorem nodupKeys_insertA {β : Type} {l : List (String × β)} (k : String)
    (v : β) (h : NodupKeys l) : NodupKeys (insertA l k v) := by
  induction l with
  | nil => simp [insertA, NodupKeys]
  | cons hd tl ih =>
      obtain ⟨k₀, v₀⟩ := hd
      have hh : (k₀ :: tl.map Prod.fst).Nodup := h
      have h₁ : k₀ ∉ tl.map Prod.fst := (List.nodup_cons.mp hh).1
      have h₂ : NodupKeys tl := (List.nodup_cons.mp hh).2
      by_cases h₀ : k₀ = k
      · simp only [insertA, if_pos h₀]
        exact (List.nodup_cons.mpr ⟨h₀ ▸ h₁, h₂⟩ : (k :: tl.map Prod.fst).Nodup)
      · have h₃ : k₀ ∉ (insertA tl k v).map Prod.fst := by
          intro hc
          rcases mem_keys_insertA hc with h₄ | h₄
          · exact h₀ h₄
          · exact h₁ h₄
        simp only [insertA, if_neg h₀]
        exact (List.nodup_cons.mpr ⟨h₃, ih h₂⟩ :
          (k₀ :: (insertA tl k v).map Prod.fst).Nodup)

theorem nodupKeys_eraseA {β : Type} {l : List (String × β)} (k : String)
    (h : NodupKeys l) : NodupKeys (eraseA l k) :=
  List.Nodup.sublist (List.Sublist.map Prod.fst (eraseA_sublist l k)) h

theorem lookupA_none_of_not_mem_keys {β : Type} {l : List (String × β)}
    {k : String} (h : k ∉ l.map Prod.fst) : lookupA l k = none := by
  induction l with
  | nil => rfl
  | cons hd tl ih =>
      obtain ⟨k₀, v₀⟩ := hd
      simp only [List.map_cons, List.mem_cons] at h
      push_neg at h
      show (if k₀ = k then some v₀ else lookupA tl k) = none
      rw [if_neg (Ne.symm h.1)]
      exact ih h.2

theorem lookupA_eraseA_self {β : Type} {l : List (String × β)} (k : String)
    (h : NodupKeys l) : lookupA (eraseA l k) k = none := by
  induction l with
  | nil => rfl
  | cons hd tl ih =>
      obtain ⟨k₀, v₀⟩ := hd
      have hh : (k₀ :: tl.map Prod.fst).Nodup := h
      have h₁ : k₀ ∉ tl.map Prod.fst := (List.nodup_cons.mp hh).1
      have h₂ : NodupKeys tl := (List.nodup_cons.mp hh).2
      by_cases h₀ : k₀ = k
      · simp only [eraseA, if_pos h₀]
        exact lookupA_none_of_not_mem_keys (h₀ ▸ h₁)
      · simp only [eraseA, if_neg h₀]
        show (if k₀ = k then some v₀ else lookupA (eraseA tl k) k) = none
        rw [if_neg h₀]
        exact ih h₂

theorem lookupA_eraseA_ne {β : Type} {l : List (String × β)} {k k' : String}
    (h : k ≠ k') : lookupA (eraseA l k) k' = lookupA l k' := by
  induction l with
  | nil => rfl
  | cons hd tl ih =>
      obtain ⟨k₀, v₀⟩ := hd
      by_cases h₀ : k₀ = k
      · subst h₀
        simp only [eraseA, if_pos, lookupA, h, if_neg, if_false]
      · simp only [eraseA, h₀, if_neg, if_false, lookupA]
        by_cases h₁ : k₀ = k'
        · simp [h₁]
        · simp only [h₁, if_neg, if_false]
          exact ih

/-- Key-uniqueness of the deployment store. -/
def PinkNodup (st : PinkState) : Prop := NodupKeys st.deployments

theorem pinkNodup_step (st : PinkState) (op : DepOp) (h : PinkNodup st) :
    PinkNodup (stepDep st op) := by
  cases op with
  | deployOp id name code config user now =>
      exact nodupKeys_insertA id _ h
  | statusOp _ => exact h
  | listOp _ _ => exact h
  | deleteOp id =>
      cases hl : lookupA st.deployments id with
      | none => simp only [stepDep, delete_deployment, hl]; exact h
      | some d =>
          simp only [stepDep, delete_deployment, hl]
          exact nodupKeys_eraseA id h

theorem pinkNodup_runDep (ops : List DepOp) : PinkNodup (runDep ops) := by
  suffices h : ∀ st, PinkNodup st → PinkNodup (ops.foldl stepDep st) from
    h PinkState.empty (by simp [PinkState.empty, PinkNodup, NodupKeys])
  induction ops with
  | nil => exact fun st h => h
  | cons op rest ih => exact fun st h => ih _ (pinkNodup_step st op h)

theorem stepDep_preserves (st : PinkState) (op : DepOp) (id : String)
    (info : DeploymentInfo) (hnd : PinkNodup st) (hw : ¬ opWritesAt op id)
    (h : lookupA st.deployments id = some info) :
    lookupA (stepDep st op).deployments id = some info
    ∨ lookupA (stepDep st op).deployments id = none := by
  cases op with
  | deployOp id' name code config user now =>
      left
      have hne : id' ≠ id := hw
      show lookupA (insertA st.deployments id' _) id = some info
      rw [lookupA_insertA_ne _ _ _ _ hne]
      exact h
  | statusOp _ => exact Or.inl h
  | listOp _ _ => exact Or.inl h
  | deleteOp id' =>
      cases hl : lookupA st.deployments id' with
      | none => simp only [stepDep, delete_deployment, hl]; exact Or.inl h
      | some d =>
          simp only [stepDep, delete_deployment, hl]
          by_cases he : id' = id
          · subst he
            exact Or.inr (lookupA_eraseA_self id' hnd)
          · exact Or.inl ((lookupA_eraseA_ne he).trans h)

/-- Claim C8: in every deployment-store state reachable from empty via
`deploy` / `get_deployment_status` / `get_user_deployments` /
`delete_deployment`, every stored record has status "deployed"; and an
operation that is not a `deploy` at a stored record's id either leaves that
record exactly as it is or (for `delete_deployment` of that id) removes it —
no operation mutates a stored record in place. -/
theorem pinksync_status_always_deployed (ops : List DepOp) :
    (∀ p ∈ (runDep ops).deployments, p.2.status = "deployed")
    ∧ (∀ op : DepOp, ∀ id : String, ∀ info : DeploymentInfo,
        ¬ opWritesAt op id →
        lookupA (runDep ops).deployments id = some info →
        lookupA (stepDep (runDep ops) op).deployments id = some info
        ∨ lookupA (stepDep (runDep ops) op).deployments id = none) :=
  ⟨allDeployed_runDep ops,
   fun op id info hw h =>
     stepDep_preserves (runDep ops) op id info (pinkNodup_runDep ops) hw h⟩

theorem pinksync_status_always_deployed_witness :
    ((runDep [.deployOp "d1" "Test API" "x" [] "alice" 0]).deployments.length = 1
      ∧ ∀ p ∈ (runDep [.deployOp "d1" "Test API" "x" [] "alice" 0]).deployments,
          p.2.status = "deployed")
    ∧ (lookupA (stepDep (runDep [.deployOp "d1" "Test API" "x" [] "alice" 0])
        (.statusOp "d1")).deployments "d1"
      = some ⟨"d1", "Test API", slugify "Test API",
          "https://mbtq.dev/api/" ++ slugify "Test API", "deployed",
          deployLogs 0 "Test API", "alice", "x", [], 0, 0⟩
      ∨ lookupA (stepDep (runDep [.deployOp "d1" "Test API" "x" [] "alice" 0])
        (.statusOp "d1")).deployments "d1" = none) := by
  constructor
  · exact ⟨rfl, (pinksync_status_always_deployed
      [.deployOp "d1" "Test API" "x" [] "alice" 0]).1⟩
  · exact (pinksync_status_always_deployed
      [.deployOp "d1" "Test API" "x" [] "alice" 0]).2 (.statusOp "d1") "d1" _
      (by simp [opWritesAt]) rfl

/-- Claim C7: `log_event` appends exactly one record, whose impact is looked
up in `REPUTATION_IMPACTS` (0 for unknown actions); with user "system" the
reputation ledger is left entirely unchanged, and with any other user the
ledger entry of every user other than the acting one is unchanged. -/
theorem fibonrose_log_event_frame (st : FibState) (id action : String)
    (md : List (String × String)) (user : String) (now : Nat) :
    (log_event st id action md user now).1.logs
        = st.logs ++ [logEntryOf id action md user now]
    ∧ (log_event st id action md user now).2.reputation_impact = impactFor action
    ∧ (lookupA REPUTATION_IMPACTS action = none → impactFor action = 0)
    ∧ (user = "system" →
        (log_event st id action md user now).1.reputation = st.reputation)
    ∧ (∀ v : String, v ≠ user →
        lookupA (log_event st id action md user now).1.reputation v
          = lookupA st.reputation v) := by
  refine ⟨?_, rfl, ?_, ?_, ?_⟩
  · rw [log_event_state_eq]
    by_cases h : user = "system"
    · rw [if_pos h]
    · rw [if_neg h, update_reputation_logs]
  · intro h
    simp [impactFor, h]
  · intro h
    rw [log_event_state_eq, if_pos h]
  · intro v hv
    rw [log_event_state_eq]
    by_cases h : user = "system"
    · rw [if_pos h]
    · rw [if_neg h]
      show lookupA (insertA st.reputation user _) v = lookupA st.reputation v
      exact lookupA_insertA_ne _ _ _ _ (Ne.symm hv)

theorem fibonrose_log_event_frame_witness :
    (log_event FibState.empty "a" "auth_success" [] "system" 0).1.reputation = []
    ∧ lookupA (log_event FibState.empty "a" "auth_success" [] "alice" 0).1.reputation
        "bob" = none
    ∧ impactFor "no_such_action" = 0 :=
  ⟨(fibonrose_log_event_frame FibState.empty "a" "auth_success" [] "system" 0).2.2.2.1
      rfl,
   ((fibonrose_log_event_frame FibState.empty "a" "auth_success" [] "alice" 0).2.2.2.2
      "bob" (by decide)).trans rfl,
   (fibonrose_log_event_frame FibState.empty "a" "no_such_action" [] "alice" 0).2.2.1
      rfl⟩

/-- One row of the `get_leaderboard` response. -/
structure LeaderboardEntry where
  username : String
  score : Int
  level : String
  total_actions : Nat
  deriving DecidableEq

/-- `FibonroseService.get_leaderboard`: reputation values sorted by score
descending (Python `sorted(..., reverse=True)` is a stable descending sort),
truncated to `limit`, projected to the response fields. -/
def get_leaderboard (st : FibState) (limit : Nat) : List LeaderboardEntry :=
  let leaderboard :=
    ((valuesA st.reputation).mergeSort
        (fun a b => decide (b.score ≤ a.score))).take limit
  leaderboard.map (fun u => ⟨u.username, u.score, u.level, u.total_actions⟩)

/-- Claim C6: `get_leaderboard limit` returns at most `limit` rows, with
scores non-increasing from first to last, and they are top-scoring: every
reputation-ledger user left out of the result has a score at most every score
in the result. -/
theorem fibonrose_leaderboard_top (st : FibState) (limit : Nat) :
    (get_leaderboard st limit).length ≤ limit
    ∧ List.Pairwise (fun a b : LeaderboardEntry => b.score ≤ a.score)
        (get_leaderboard st limit)
    ∧ (∀ r ∈ valuesA st.reputation,
        (⟨r.username, r.score, r.level, r.total_actions⟩ : LeaderboardEntry)
          ∉ get_leaderboard st limit →
        ∀ x ∈ get_leaderboard st limit, r.score ≤ x.score) := by
  have htrans : ∀ a b c : RepEntry, decide (b.score ≤ a.score) = true →
      decide (c.score ≤ b.score) = true → decide (c.score ≤ a.score) = true := by
    intro a b c h₁ h₂
    simp at h₁ h₂ ⊢
    omega
  have htotal : ∀ a b : RepEntry,
      (decide (b.score ≤ a.score) || decide (a.score ≤ b.score)) = true := by
    intro a b
    simp
    omega
  have hpair : List.Pairwise
      (fun a b : RepEntry => decide (b.score ≤ a.score) = true)
      ((valuesA st.reputation).mergeSort (fun a b => decide (b.score ≤ a.score))) :=
    List.sorted_mergeSort htrans htotal (valuesA st.reputation)
  refine ⟨?_, ?_, ?_⟩
  · simp only [get_leaderboard, List.length_map]
    exact List.length_take_le _ _
  · have h₁ : List.Pairwise
        (fun a b : RepEntry => decide (b.score ≤ a.score) = true)
        (((valuesA st.reputation).mergeSort
            (fun a b => decide (b.score ≤ a.score))).take limit) :=
      hpair.sublist (List.take_sublist _ _)
    unfold get_leaderboard
    rw [List.pairwise_map]
    exact h₁.imp (fun h => of_decide_eq_true h)
  · intro r hr hnot x hx
    set sortedVals := (valuesA st.reputation).mergeSort
      (fun a b => decide (b.score ≤ a.score)) with hs
    have hrs : r ∈ sortedVals :=
      (List.mergeSort_perm (valuesA st.reputation) _).mem_iff.mpr hr
    have hsplit : sortedVals.take limit ++ sortedVals.drop limit = sortedVals :=
      List.take_append_drop _ _
    have hrdrop : r ∈ sortedVals.drop limit := by
      rcases (List.mem_append.mp (hsplit ▸ hrs)) with h₁ | h₁
      · exact absurd (List.mem_map_of_mem
          (fun u : RepEntry =>
            (⟨u.username, u.score, u.level, u.total_actions⟩ : LeaderboardEntry))
          h₁) hnot
      · exact h₁
    rcases List.mem_map.mp hx with ⟨y, hy, hyx⟩
    have hcross := (List.pairwise_append.mp (hsplit ▸ hpair)).2.2 y hy r hrdrop
    have : r.score ≤ y.score := of_decide_eq_true hcross
    rw [← hyx]
    exact this

unseal List.merge List.mergeSort in
theorem fibonrose_leaderboard_top_witness :
    ((⟨"bob", 5, "Novice", 1, 0, []⟩ : RepEntry) ∈
        valuesA [("alice", (⟨"alice", 50, "Apprentice", 1, 0, []⟩ : RepEntry)),
                 ("bob", ⟨"bob", 5, "Novice", 1, 0, []⟩)])
    ∧ ((⟨"bob", 5, "Novice", 1⟩ : LeaderboardEntry) ∉
        get_leaderboard (FibState.mk []
          [("alice", ⟨"alice", 50, "Apprentice", 1, 0, []⟩),
           ("bob", ⟨"bob", 5, "Novice", 1, 0, []⟩)]) 1)
    ∧ ((⟨"alice", 50, "Apprentice", 1⟩ : LeaderboardEntry) ∈
        get_leaderboard (FibState.mk []
          [("alice", ⟨"alice", 50, "Apprentice", 1, 0, []⟩),
           ("bob", ⟨"bob", 5, "Novice", 1, 0, []⟩)]) 1)
    ∧ (5 : Int) ≤ (50 : Int) :=
  ⟨by decide, by decide, by decide,
   by
    have h := (fibonrose_leaderboard_top (FibState.mk []
        [("alice", ⟨"alice", 50, "Apprentice", 1, 0, []⟩),
         ("bob", ⟨"bob", 5, "Novice", 1, 0, []⟩)]) 1).2.2
      ⟨"bob", 5, "Novice", 1, 0, []⟩ (by decide) (by decide)
      ⟨"alice", 50, "Apprentice", 1⟩ (by decide)
    exact h⟩

/-! ### Catalog filtering (src/main.py, `get_api_entries`)

The endpoint fetches the remote catalog and filters it in memory.  The fetch
is a boundary collaborator; the filter pipeline below is the code after
`entries = data.get("entries", [])`.  A `None` query parameter is `none`; an
empty string is falsy in Python, so `if category and ...` / `if search:` /
`if auth:` skip their filters for `""` as well.
-/

/-- One catalog entry (the JSON keys used by the filters). -/
structure APIEntry where
  api : String
  description : String
  auth : String
  https : Bool
  category : String
  deriving DecidableEq

/-- Python `str.lower()`, character by character. -/
def pyLower (s : String) : String := ⟨s.toList.map Char.toLower⟩

/-- Python `needle in hay` on strings: contiguous-substring test. -/
def substrB (needle : List Char) : List Char → Bool
  | [] => needle.isEmpty
  | c :: rest => needle.isPrefixOf (c :: rest) || substrB needle rest

/-- The filter pipeline of `get_api_entries` in `src/main.py`. -/
def get_api_entries (category search auth : Option String)
    (https : Option Bool) (limit : Nat) (entries : List APIEntry) :
    List APIEntry :=
  let e1 := match category with
    | none => entries
    | some c =>
        if c ≠ "" ∧ pyLower c ≠ "all" then
          entries.filter (fun e => e.category = c)
        else entries
  let e2 := match search with
    | none => e1
    | some s =>
        if s ≠ "" then
          e1.filter (fun e =>
            substrB (pyLower s).toList (pyLower e.api).toList
            || substrB (pyLower s).toList (pyLower e.description).toList)
        else e1
  let e3 := match auth with
    | none => e2
    | some a => if a ≠ "" then e2.filter (fun e => e.auth = a) else e2
  let e4 := match https with
    | none => e3
    | some b => e3.filter (fun e => e.https = b)
  e4.take limit

/-- Counterexample to claim C4 as stated: the empty string is a non-"all"
category, yet Python's truthiness test skips the filter for it, so the result
keeps an entry whose Category is not `""` instead of being the (empty) list
of entries with Category `""`. -/
theorem get_api_entries_empty_category_counterexample :
    get_api_entries (some "") none none none 100
        [⟨"Cat Facts", "daily cat facts", "", true, "Animals"⟩]
      = [⟨"Cat Facts", "daily cat facts", "", true, "Animals"⟩]
    ∧ List.filter (fun e => decide (e.category = ""))
        [(⟨"Cat Facts", "daily cat facts", "", true, "Animals"⟩ : APIEntry)]
      = [] := by
  constructor
  · rfl
  · rfl

/-- Claim C4 (amended): with no other filters and a limit at least the number
of entries, a category equal to "all" case-insensitively leaves the list
unfiltered, and so does the empty-string category (Python truthiness); every
other category `c` yields exactly the entries whose Category equals `c` — in
particular the empty list, not an error, when none matches. -/
theorem get_api_entries_category_filter (c : String) (entries : List APIEntry)
    (limit : Nat) (hlim : entries.length ≤ limit) :
    (pyLower c = "all" →
      get_api_entries (some c) none none none limit entries = entries)
    ∧ (c = "" →
      get_api_entries (some c) none none none limit entries = entries)
    ∧ (c ≠ "" → pyLower c ≠ "all" →
      get_api_entries (some c) none none none limit entries
        = entries.filter (fun e => e.category = c))
    ∧ (c ≠ "" → pyLower c ≠ "all" → (∀ e ∈ entries, e.category ≠ c) →
      get_api_entries (some c) none none none limit entries = []) := by
  refine ⟨?_, ?_, ?_, ?_⟩
  · intro h
    simp only [get_api_entries, h]
    simp [List.take_of_length_le hlim]
  · intro h
    simp only [get_api_entries, h]
    simp [List.take_of_length_le hlim]
  · intro h₁ h₂
    simp only [get_api_entries]
    rw [if_pos (⟨h₁, h₂⟩ : ¬c = "" ∧ ¬pyLower c = "all")]
    exact List.take_of_length_le
      (le_trans (List.length_filter_le _ _) hlim)
  · intro h₁ h₂ h₃
    have hfe : entries.filter (fun e => decide (e.category = c)) = [] := by
      rw [List.filter_eq_nil_iff]
      intro e he
      simpa using h₃ e he
    simp only [get_api_entries]
    rw [if_pos (⟨h₁, h₂⟩ : ¬c = "" ∧ ¬pyLower c = "all"), hfe, List.take_nil]

theorem get_api_entries_category_filter_witness :
    get_api_entries (some "ALL") none none none 100
        [⟨"Cat Facts", "daily cat facts", "", true, "Animals"⟩,
         ⟨"Frankfurter", "exchange rates", "", true, "Currency Exchange"⟩]
      = [⟨"Cat Facts", "daily cat facts", "", true, "Animals"⟩,
         ⟨"Frankfurter", "exchange rates", "", true, "Currency Exchange"⟩]
    ∧ get_api_entries (some "Animals") none none none 100
        [⟨"Cat Facts", "daily cat facts", "", true, "Animals"⟩,
         ⟨"Frankfurter", "exchange rates", "", true, "Currency Exchange"⟩]
      = [⟨"Cat Facts", "daily cat facts", "", true, "Animals"⟩]
    ∧ get_api_entries (some "Nonexistent") none none none 100
        [⟨"Cat Facts", "daily cat facts", "", true, "Animals"⟩,
         ⟨"Frankfurter", "exchange rates", "", true, "Currency Exchange"⟩]
      = [] := by
  refine ⟨?_, ?_, ?_⟩
  · exact (get_api_entries_category_filter "ALL"
      [⟨"Cat Facts", "daily cat facts", "", true, "Animals"⟩,
       ⟨"Frankfurter", "exchange rates", "", true, "Currency Exchange"⟩]
      100 (by decide)).1 (by decide)
  · exact ((get_api_entries_category_filter "Animals"
      [⟨"Cat Facts", "daily cat facts", "", true, "Animals"⟩,
       ⟨"Frankfurter", "exchange rates", "", true, "Currency Exchange"⟩]
      100 (by decide)).2.2.1 (by decide) (by decide)).trans (by decide)
  · exact (get_api_entries_category_filter "Nonexistent"
      [⟨"Cat Facts", "daily cat facts", "", true, "Animals"⟩,
       ⟨"Frankfurter", "exchange rates", "", true, "Currency Exchange"⟩]
      100 (by decide)).2.2.2 (by decide) (by decide) (by decide)

end AutoAPI

